import Mathlib

/-!
Verification of the silence-aware chunking subsystem of `transcribe-speech`
(src/transcribe-speech.js). The JavaScript numeric values (seconds, float)
are modelled as exact rationals `ℚ`; lists model JS arrays; `Option ℚ`
models `number | null`; oracles `ℕ → ...` model the outcomes of external
per-segment calls (ffmpeg extraction, the remote transcription API).
-/

/-- Embeds the inner forward scan of `calculateOptimalSplitPoints`
(src/transcribe-speech.js lines 235-245): starting at the opening
candidate, walk subsequent silence points; return the first candidate `c`
with `c - cursor <= max` and `c - cursor >= max * 0.5` (the JS `break`
with `bestPoint = candidatePoint`); return `none` when a candidate
overshoots (`c - cursor > max`, the JS second `break`, leaving `bestPoint`
at its initial value) or when the points run out. -/
def findBest (cursor maxChunkDuration : ℚ) : List ℚ → Option ℚ
  | [] => none
  | c :: rest =>
    if c - cursor ≤ maxChunkDuration ∧ maxChunkDuration * 0.5 ≤ c - cursor then
      some c
    else if maxChunkDuration < c - cursor then
      none
    else
      findBest cursor maxChunkDuration rest

/-- Embeds the outer loop of `calculateOptimalSplitPoints`
(src/transcribe-speech.js lines 226-250): walk the silence points with the
running `currentTime` cursor; a point `p` opens a candidate region once
`p - currentTime >= maxChunkDuration * 0.8`; the committed cut is the
inner scan's result, falling back to `p` itself (`bestPoint`'s initial
value) when the scan finds nothing; the loop then continues at the next
array index (`i + 1`), with `currentTime` set to the committed cut. -/
def calcGo (cursor maxChunkDuration : ℚ) : List ℚ → List ℚ
  | [] => []
  | p :: rest =>
    if maxChunkDuration * 0.8 ≤ p - cursor then
      let bestPoint := (findBest cursor maxChunkDuration (p :: rest)).getD p
      bestPoint :: calcGo bestPoint maxChunkDuration rest
    else
      calcGo cursor maxChunkDuration rest

set_option linter.unusedVariables false in
/-- Embeds `calculateOptimalSplitPoints(silencePoints, totalDuration,
maxChunkDuration)` (src/transcribe-speech.js lines 222-253). The
`totalDuration` parameter is declared, as in the source, and — as in the
source body — never used. -/
def calculateOptimalSplitPoints (silencePoints : List ℚ)
    (totalDuration maxChunkDuration : ℚ) : List ℚ :=
  calcGo 0 maxChunkDuration silencePoints

/-- A segment of the audio stream: `endTime = none` embeds the JS
`end: null` ("to end of stream"), used by `splitAtSpecificPoints`
(src/transcribe-speech.js lines 262-273). -/
structure Segment where
  start : ℚ
  endTime : Option ℚ
deriving DecidableEq

/-- An extracted chunk as pushed by `splitAtSpecificPoints` /
`splitByTime` (src/transcribe-speech.js lines 297-301 and 341-345):
`startTime`/`endTime` copied from the segment (the output file path is an
opaque collaborator concern and is omitted). -/
structure Chunk where
  startTime : ℚ
  endTime : Option ℚ
deriving DecidableEq

/-- Helper recursion for the segment-building loop of
`splitAtSpecificPoints` (src/transcribe-speech.js lines 262-273): given
the previous boundary, each remaining split point closes one segment, and
the trailing audio becomes the final open-ended segment. -/
def mkSegmentsGo (prev : ℚ) : List ℚ → List Segment
  | [] => [{ start := prev, endTime := none }]
  | p :: rest => { start := prev, endTime := some p } :: mkSegmentsGo p rest

/-- Embeds the segments array constructed by `splitAtSpecificPoints`
(src/transcribe-speech.js lines 262-273): for split points `p0..pn` the
segments are `{0,p0}, {p0,p1}, ..., {p(n-1),pn}` plus the final
`{pn, null}`; the final segment is only appended when
`splitPoints.length > 0`, so an empty split-point list yields an empty
segments array. -/
def mkSegments : List ℚ → List Segment
  | [] => []
  | p :: rest => mkSegmentsGo 0 (p :: rest)

/-- Embeds the chunk list assembled by `splitByTime`
(src/transcribe-speech.js lines 339-346): for each of the `numFiles`
generated files, in sorted order, chunk `index` gets
`startTime = index * chunkDuration` and
`endTime = startTime + chunkDuration` (never `null`). -/
def splitByTimeChunks (numFiles : ℕ) (chunkDuration : ℚ) : List Chunk :=
  (List.range numFiles).map fun (index : ℕ) =>
    { startTime := (index : ℚ) * chunkDuration
      endTime := some ((index : ℚ) * chunkDuration + chunkDuration) }

/-- The two continuations of `splitAtSilence` after planning
(src/transcribe-speech.js lines 200-212): dispatch to `splitByTime` when
the computed split-point list is empty, otherwise to
`splitAtSpecificPoints` with those points. -/
inductive SplitDispatch where
  | silenceBased (splitPoints : List ℚ)
  | timeBased (chunkDuration : ℚ)
deriving DecidableEq

/-- Embeds the decision logic of `splitAtSilence`'s `end` handler
(src/transcribe-speech.js lines 192-212): compute the optimal split
points, then dispatch to time-based splitting exactly when the plan is
empty. No validation of `maxChunkDuration` is performed anywhere on this
path (nor before it: lines 148-162 start the ffmpeg scan directly). -/
def splitAtSilenceDispatch (silencePoints : List ℚ)
    (audioDuration maxChunkDuration : ℚ) : SplitDispatch :=
  let splitPoints := calculateOptimalSplitPoints silencePoints audioDuration maxChunkDuration
  if splitPoints.length = 0 then
    SplitDispatch.timeBased maxChunkDuration
  else
    SplitDispatch.silenceBased splitPoints

/-- Modelled from the spec (section 4.2, step 3): the reference forward
scan. From the opening candidate onward, return the first point q with
`0.5 * target <= q - cursor <= target`, paired with the points that
follow q (so the outer walk can resume after the chosen point); return
none — meaning "fall back to the opening candidate" (step 4) — as soon
as a candidate overshoots the target, or when the points run out. -/
def findBestSplit (cursor t : ℚ) : List ℚ → Option (ℚ × List ℚ)
  | [] => none
  | c :: rest =>
    if c - cursor ≤ t ∧ t * 0.5 ≤ c - cursor then
      some (c, rest)
    else if t < c - cursor then
      none
    else
      findBestSplit cursor t rest

/-- Modelled from the spec (section 4.2, steps 1-6): the reference
planner loop. A point opens a candidate region once it lies at least
`0.8 * target` past the cursor (step 2); the forward scan chooses the
cut (steps 3-4); the cut is committed, the cursor set to it, and the
outer walk continues from the position after the chosen point (step 5) —
unlike the implementation, which continues from the position after the
opening candidate. `fuel` bounds the number of outer steps; every step
consumes at least one silence point, so fuel equal to the list length
always suffices. -/
def calcRefGo (t : ℚ) : ℕ → ℚ → List ℚ → List ℚ
  | 0, _, _ => []
  | _ + 1, _, [] => []
  | fuel + 1, cursor, p :: rest =>
    if t * 0.8 ≤ p - cursor then
      match findBestSplit cursor t (p :: rest) with
      | some (q, rest2) => q :: calcRefGo t fuel q rest2
      | none => p :: calcRefGo t fuel p rest
    else
      calcRefGo t fuel cursor rest

/-- Modelled from the spec (section 4.2): the reference split-point
computation, walking the silence points from cursor 0. -/
def calcRefSplitPoints (silencePoints : List ℚ) (targetChunkSeconds : ℚ) : List ℚ :=
  calcRefGo targetChunkSeconds silencePoints.length 0 silencePoints

/-- A per-segment extraction failure as reported by the error handler of
`splitAtSpecificPoints` (src/transcribe-speech.js lines 308-310): the
rejection message `Error creating chunk ${index}: ${err.message}` names
the failing segment's index and the underlying cause. -/
structure ExtractionFailure where
  index : ℕ
  cause : String
deriving DecidableEq

/-- Outcome of the ffmpeg extraction command launched for one segment by
`splitAtSpecificPoints` (src/transcribe-speech.js lines 281-311): on
success (the `end` handler, lines 296-301) a chunk carrying the segment's
offsets is produced; on failure (the `error` handler, lines 308-310) an
error naming the segment's index and cause. The success/failure of the
external ffmpeg process is an oracle `fails : ℕ → Option String`. -/
def extractResult (index : ℕ) (fails : ℕ → Option String) (s : Segment) :
    Except ExtractionFailure Chunk :=
  match fails index with
  | none => Except.ok { startTime := s.start, endTime := s.endTime }
  | some cause => Except.error { index := index, cause := cause }

/-- Embeds the `segments.forEach` fan-out of `splitAtSpecificPoints`
(src/transcribe-speech.js lines 278-312): an independent ffmpeg command is
launched for every segment, unconditionally — no segment's launch or
outcome inspects any other segment's outcome. The list collects each
segment's own outcome at its own position. -/
def runSegmentExtractions (index : ℕ) (fails : ℕ → Option String) :
    List Segment → List (Except ExtractionFailure Chunk)
  | [] => []
  | s :: rest => extractResult index fails s :: runSegmentExtractions (index + 1) fails rest

/-- Embeds the chunk collection of `splitAtSpecificPoints`
(src/transcribe-speech.js lines 296-305): each ffmpeg command's `end`
handler pushes its chunk onto the shared `chunks` array, so the array
order is the completion order of the concurrently running commands —
`completionOrder` lists the segment indices in the order their `end`
events fire. -/
def collectChunks (segments : List Segment) (completionOrder : List ℕ) : List Chunk :=
  completionOrder.filterMap fun i =>
    (segments[i]?).map fun s => { startTime := s.start, endTime := s.endTime }

/-- A transcript entry as appended by the chunk loop of `transcribeAudio`
(src/transcribe-speech.js lines 609-629): the segment offsets plus either
the transcription text or the inline error marker. -/
structure TranscriptEntry where
  start : ℚ
  endTime : Option ℚ
  text : String
deriving DecidableEq

/-- Embeds one iteration of the chunk loop of `transcribeAudio`
(src/transcribe-speech.js lines 616-628): a successful transcription
yields an entry with the transcribed text (line 618); a failed one is
caught and yields an entry whose text is the inline marker
`[ERROR: <message>]` (line 626); either way the entry is appended and the
loop continues. -/
def transcribeChunkEntry (c : Chunk) (result : Except String String) : TranscriptEntry :=
  match result with
  | Except.ok text => { start := c.startTime, endTime := c.endTime, text := text }
  | Except.error msg =>
      { start := c.startTime, endTime := c.endTime, text := "[ERROR: " ++ msg ++ "]" }

/-- Embeds the sequential `for` loop of `transcribeAudio`
(src/transcribe-speech.js lines 609-629): chunks are processed one at a
time in array order, each chunk's entry being appended before the next
chunk's transcription starts. The external transcription outcome per loop
index is an oracle `transcribeFn : ℕ → Chunk → Except String String`. -/
def transcribeChunksGo (i : ℕ) (transcribeFn : ℕ → Chunk → Except String String) :
    List Chunk → List TranscriptEntry
  | [] => []
  | c :: rest =>
      transcribeChunkEntry c (transcribeFn i c) :: transcribeChunksGo (i + 1) transcribeFn rest

/-- The full transcript-entry sequence appended by `transcribeAudio`'s
chunk loop (src/transcribe-speech.js lines 609-629), starting at chunk 0. -/
def transcribeAudioEntries (chunks : List Chunk)
    (transcribeFn : ℕ → Chunk → Except String String) : List TranscriptEntry :=
  transcribeChunksGo 0 transcribeFn chunks

/-- Every cut the inner forward scan returns is one of the scanned silence
points and lies at least `maxChunkDuration * 0.5` past the cursor. -/
theorem findBest_spec {cursor t : ℚ} {l : List ℚ} {q : ℚ}
    (h : findBest cursor t l = some q) : q ∈ l ∧ t * 0.5 ≤ q - cursor := by
  induction l with
  | nil => simp [findBest] at h
  | cons c rest ih =>
    rw [findBest] at h
    split at h
    · rename_i hc
      cases h
      exact ⟨List.mem_cons_self _ _, hc.2⟩
    · split at h
      · cases h
      · rcases ih h with ⟨hm, hle⟩
        exact ⟨List.mem_cons_of_mem _ hm, hle⟩

/-- With a positive target, every point the planner loop emits lies
strictly past the running cursor and is one of the input silence points. -/
theorem calcGo_mem {t : ℚ} (ht : 0 < t) {cursor x : ℚ} {l : List ℚ}
    (h : x ∈ calcGo cursor t l) : cursor < x ∧ x ∈ l := by
  induction l generalizing cursor with
  | nil => simp [calcGo] at h
  | cons p rest ih =>
    rw [calcGo] at h
    split at h
    · rename_i hopen
      have hbest : cursor < (findBest cursor t (p :: rest)).getD p ∧
          (findBest cursor t (p :: rest)).getD p ∈ p :: rest := by
        cases hfb : findBest cursor t (p :: rest) with
        | none =>
          refine ⟨?_, by simp⟩
          have : 0 < t * 0.8 := by positivity
          simp only [Option.getD_none]
          linarith
        | some q =>
          rcases findBest_spec hfb with ⟨hm, hle⟩
          have : 0 < t * 0.5 := by positivity
          exact ⟨by simp only [Option.getD_some]; linarith, by simpa using hm⟩
      rcases List.mem_cons.mp h with rfl | hx
      · exact hbest
      · rcases ih hx with ⟨h1, h2⟩
        exact ⟨lt_trans hbest.1 h1, List.mem_cons_of_mem _ h2⟩
    · rcases ih h with ⟨h1, h2⟩
      exact ⟨h1, List.mem_cons_of_mem _ h2⟩

/-- With a positive target, the planner loop's output is strictly
increasing. -/
theorem calcGo_pairwise {t : ℚ} (ht : 0 < t) (cursor : ℚ) (l : List ℚ) :
    List.Pairwise (· < ·) (calcGo cursor t l) := by
  induction l generalizing cursor with
  | nil => simp [calcGo]
  | cons p rest ih =>
    rw [calcGo]
    split
    · exact List.pairwise_cons.mpr ⟨fun y hy => (calcGo_mem ht hy).1, ih _⟩
    · exact ih _

/-- C2: as stated — for every silence-point sequence, duration, and
targetChunkSeconds — the claim fails: on silencePoints = [100, 100],
duration = 50, targetChunkSeconds = 0 the planner returns [100, 100],
which is neither strictly increasing nor inside (0, 50). -/
theorem c2_counterexample :
    ¬ (List.Pairwise (· < ·) (calculateOptimalSplitPoints [100, 100] 50 0) ∧
       ∀ x ∈ calculateOptimalSplitPoints [100, 100] 50 0, 0 < x ∧ x < 50) := by
  have h : calculateOptimalSplitPoints [100, 100] 50 0 = [100, 100] := by
    norm_num [calculateOptimalSplitPoints, calcGo, findBest]
  rintro ⟨-, hall⟩
  rw [h] at hall
  have := (hall 100 (by simp)).2
  norm_num at this

/-- C2 amended: whenever targetChunkSeconds is positive and every silence
point lies below the duration, each split point returned by the planner
lies strictly between 0 and duration and the returned sequence is
strictly increasing. -/
theorem c2_amended_split_points_increasing_in_range (sp : List ℚ) (d t : ℚ)
    (ht : 0 < t) (hd : ∀ p ∈ sp, p < d) :
    List.Pairwise (· < ·) (calculateOptimalSplitPoints sp d t) ∧
    ∀ x ∈ calculateOptimalSplitPoints sp d t, 0 < x ∧ x < d := by
  refine ⟨calcGo_pairwise ht 0 sp, fun x hx => ?_⟩
  rcases calcGo_mem ht hx with ⟨h1, h2⟩
  exact ⟨h1, hd x h2⟩

/-- Witness for the amended C2 at silencePoints = [30, 70],
duration = 100, targetChunkSeconds = 60. -/
theorem c2_amended_witness :
    (0 : ℚ) < 60 ∧ (∀ p ∈ ([30, 70] : List ℚ), p < 100) ∧
    (List.Pairwise (· < ·) (calculateOptimalSplitPoints [30, 70] 100 60) ∧
     ∀ x ∈ calculateOptimalSplitPoints [30, 70] 100 60, 0 < x ∧ x < 100) :=
  ⟨by norm_num, by norm_num,
    c2_amended_split_points_increasing_in_range [30, 70] 100 60 (by norm_num) (by norm_num)⟩

/-- C3: on silencePoints = [10, 40, 65, 95, 130], duration = 140,
targetChunkSeconds = 60, the planner returns exactly [65, 130]. -/
theorem c3_split_points_on_worked_example :
    calculateOptimalSplitPoints [10, 40, 65, 95, 130] 140 60 = [65, 130] := by
  norm_num [calculateOptimalSplitPoints, calcGo, findBest]

/-- C10: the split-point computation never reads its total-duration
argument — two calls differing only in totalDuration return identical
split-point sequences. -/
theorem c10_total_duration_never_read (sp : List ℚ) (t d1 d2 : ℚ) :
    calculateOptimalSplitPoints sp d1 t = calculateOptimalSplitPoints sp d2 t := rfl

/-- The segment list built from a boundary and remaining split points is a
closed-ended prefix followed by exactly one final open-ended segment. -/
theorem mkSegmentsGo_structure (l : List ℚ) (prev : ℚ) :
    ∃ init q, mkSegmentsGo prev l = init ++ [⟨q, none⟩] ∧
      ∀ s ∈ init, s.endTime ≠ none := by
  induction l generalizing prev with
  | nil => exact ⟨[], prev, rfl, by simp⟩
  | cons p rest ih =>
    rcases ih p with ⟨init, q, heq, hinit⟩
    refine ⟨⟨prev, some p⟩ :: init, q, by rw [mkSegmentsGo, heq]; rfl, ?_⟩
    intro s hs
    rcases List.mem_cons.mp hs with rfl | hs
    · simp
    · exact hinit s hs

/-- The segment list built from a boundary starts at that boundary. -/
theorem mkSegmentsGo_head_start (l : List ℚ) (prev : ℚ) :
    ∀ s ∈ (mkSegmentsGo prev l).head?, s.start = prev := by
  cases l with
  | nil => simp [mkSegmentsGo]
  | cons p rest => simp [mkSegmentsGo]

/-- Consecutive segments built by the segment loop share their boundary:
each segment's end is the next segment's start. -/
theorem mkSegmentsGo_chain (l : List ℚ) (prev : ℚ) :
    List.Chain' (fun a b => a.endTime = some b.start) (mkSegmentsGo prev l) := by
  induction l generalizing prev with
  | nil => simp [mkSegmentsGo]
  | cons p rest ih =>
    rw [mkSegmentsGo]
    refine List.chain'_cons'.mpr ⟨?_, ih p⟩
    intro b hb
    have := mkSegmentsGo_head_start rest p b hb
    simp [this]

/-- Each chunk of the time-based fallback ends exactly `chunkDuration`
after it starts — no chunk, the last included, is open-ended. -/
theorem splitByTimeChunks_endTime (numFiles : ℕ) (d : ℚ) :
    ∀ c ∈ splitByTimeChunks numFiles d, c.endTime = some (c.startTime + d) := by
  intro c hc
  rcases List.mem_map.mp hc with ⟨i, -, rfl⟩
  rfl

/-- Consecutive chunks of the time-based fallback share their boundary. -/
theorem splitByTimeChunks_chain (numFiles : ℕ) (d : ℚ) :
    List.Chain' (fun a b => a.endTime = some b.startTime) (splitByTimeChunks numFiles d) := by
  unfold splitByTimeChunks
  apply List.chain'_map_of_chain' (R := fun i j : ℕ => j = i + 1)
  · rintro a b rfl
    simp only [Option.some.injEq]
    push_cast
    ring
  · cases numFiles with
    | zero => simp
    | succ n =>
      rw [List.chain'_range_succ]
      intro m hm
      rfl

/-- C4: as stated the claim fails on the time-based fallback path: with
two fallback chunks of 60 seconds, the final chunk has endTime 120, not
null — no fallback chunk is ever open-ended. -/
theorem c4_counterexample :
    ¬ (∀ c ∈ (splitByTimeChunks 2 60).getLast?, c.endTime = none) := by
  intro h
  have h2 : splitByTimeChunks 2 60 = [⟨0, some 60⟩, ⟨60, some 120⟩] := by
    norm_num [splitByTimeChunks, List.range_succ]
  have := h ⟨60, some 120⟩ (by rw [h2]; rfl)
  simp at this

/-- C4 amended: segments from a non-empty split-point sequence are a
contiguous in-order partition (each segment's end equals the next
segment's start) in which exactly the final segment is open-ended
(end = null); chunks from the time-based fallback are likewise
contiguous, but every fallback chunk — the final one included — has the
concrete end startTime + chunkDuration, never null. -/
theorem c4_amended_partition_shapes (splitPoints : List ℚ)
    (hne : splitPoints ≠ []) (numFiles : ℕ) (d : ℚ) :
    List.Chain' (fun a b => a.endTime = some b.start) (mkSegments splitPoints) ∧
    (∀ s ∈ (mkSegments splitPoints).dropLast, s.endTime ≠ none) ∧
    (∀ s ∈ (mkSegments splitPoints).getLast?, s.endTime = none) ∧
    List.Chain' (fun a b => a.endTime = some b.startTime) (splitByTimeChunks numFiles d) ∧
    (∀ c ∈ splitByTimeChunks numFiles d, c.endTime = some (c.startTime + d)) := by
  obtain ⟨p, rest, rfl⟩ := List.exists_cons_of_ne_nil hne
  have hgo : mkSegments (p :: rest) = mkSegmentsGo 0 (p :: rest) := rfl
  rcases mkSegmentsGo_structure (p :: rest) 0 with ⟨init, q, heq, hinit⟩
  refine ⟨by rw [hgo]; exact mkSegmentsGo_chain _ _, ?_, ?_,
    splitByTimeChunks_chain numFiles d, splitByTimeChunks_endTime numFiles d⟩
  · intro s hs
    rw [hgo, heq, List.dropLast_concat] at hs
    exact hinit s hs
  · intro s hs
    rw [hgo, heq, List.getLast?_concat] at hs
    cases hs
    rfl

/-- Witness for the amended C4 at splitPoints = [65, 130], two fallback
chunks of 60 seconds. -/
theorem c4_amended_witness :
    ([65, 130] : List ℚ) ≠ [] ∧
    (List.Chain' (fun a b => a.endTime = some b.start) (mkSegments [65, 130]) ∧
     (∀ s ∈ (mkSegments [65, 130]).dropLast, s.endTime ≠ none) ∧
     (∀ s ∈ (mkSegments [65, 130]).getLast?, s.endTime = none) ∧
     List.Chain' (fun a b => a.endTime = some b.startTime) (splitByTimeChunks 2 60) ∧
     (∀ c ∈ splitByTimeChunks 2 60, c.endTime = some (c.startTime + 60))) :=
  ⟨by simp, c4_amended_partition_shapes [65, 130] (by simp) 2 60⟩

/-- C7: as stated the claim fails: on an empty split-point sequence the
segment loop of `splitAtSpecificPoints` builds zero segments — the final
open-ended segment is only appended when the split-point list is
non-empty — so it does not return the single whole-stream segment
`{start: 0, end: null}`. -/
theorem c7_counterexample :
    mkSegments [] = [] ∧ mkSegments [] ≠ [⟨0, none⟩] := by
  exact ⟨rfl, by decide⟩

/-- C7 amended: when the split-point sequence given to the segment
extractor is empty, the extractor constructs no segments at all (the
pipeline never reaches this case: an empty plan is routed to the
time-based splitter instead). -/
theorem c7_amended_empty_split_points_no_segments : mkSegments [] = [] := rfl

/-- C1: the code violates the claim. `splitAtSpecificPoints` launches all
segment extractions concurrently (`segments.forEach` with `.run()`,
lines 278-312) and each chunk is pushed by its own `end` handler, so the
chunks array handed to the sequential transcription loop is in
extraction-completion order, not segment order. Under the valid schedule
in which segment 1 finishes before segment 0 (completion order [1, 0, 2],
a permutation of the three segment indices from split points [65, 130]),
the first chunk transcribed covers segment 1 (65-130) rather than segment
0 (0-65), and the first transcript entry appended starts at 65 while
segment 0's entry comes later: the output is out of chronological
order. -/
theorem c1_completion_order_race :
    List.Perm [1, 0, 2] (List.range 3) ∧
    (mkSegments [65, 130]).length = 3 ∧
    collectChunks (mkSegments [65, 130]) [1, 0, 2] =
      [⟨65, some 130⟩, ⟨0, some 65⟩, ⟨130, none⟩] ∧
    (transcribeAudioEntries (collectChunks (mkSegments [65, 130]) [1, 0, 2])
        (fun _ _ => Except.ok "text"))[0]?.map TranscriptEntry.start = some 65 ∧
    ((mkSegments [65, 130])[0]?).map Segment.start = some 0 :=
  ⟨by decide, by decide, by decide, by decide, by decide⟩

/-- The extraction fan-out launches one command per segment: the outcome
list always has exactly one entry per segment, failures included. -/
theorem runSegmentExtractions_length (k : ℕ) (fails : ℕ → Option String)
    (segs : List Segment) :
    (runSegmentExtractions k fails segs).length = segs.length := by
  induction segs generalizing k with
  | nil => rfl
  | cons s rest ih => simp [runSegmentExtractions, ih]

/-- The j-th extraction outcome is exactly the j-th segment's own result
under the failure oracle, offset by the starting index. -/
theorem runSegmentExtractions_getElem? (k j : ℕ) (fails : ℕ → Option String)
    (segs : List Segment) :
    (runSegmentExtractions k fails segs)[j]? =
      (segs[j]?).map (extractResult (k + j) fails) := by
  induction segs generalizing k j with
  | nil => simp [runSegmentExtractions]
  | cons s rest ih =>
    cases j with
    | zero => simp [runSegmentExtractions]
    | succ j' =>
      simp only [runSegmentExtractions, List.getElem?_cons_succ]
      rw [ih (k + 1) j']
      have h : k + 1 + j' = k + (j' + 1) := by omega
      rw [h]

/-- C5: a failure extracting segment i is reported as an error naming
exactly that segment's index and cause; an extraction command is still
launched for every segment (one outcome per segment regardless of
failures), and every other segment's outcome is unchanged under any
failure oracle that agrees outside i — extraction of each segment is
independent. -/
theorem c5_extraction_independent_per_segment (segments : List Segment)
    (fails fails' : ℕ → Option String) (i : ℕ) (m : String)
    (hi : i < segments.length) (hfail : fails i = some m)
    (hagree : ∀ j, j ≠ i → fails' j = fails j) :
    (runSegmentExtractions 0 fails segments).length = segments.length ∧
    (runSegmentExtractions 0 fails segments)[i]? =
      some (Except.error ⟨i, m⟩) ∧
    ∀ j, j ≠ i →
      (runSegmentExtractions 0 fails segments)[j]? =
      (runSegmentExtractions 0 fails' segments)[j]? := by
  refine ⟨runSegmentExtractions_length 0 fails segments, ?_, ?_⟩
  · rw [runSegmentExtractions_getElem?, List.getElem?_eq_getElem hi]
    simp [extractResult, hfail]
  · intro j hj
    rw [runSegmentExtractions_getElem?, runSegmentExtractions_getElem?]
    cases hsj : segments[j]? with
    | none => simp
    | some s =>
      simp only [hsj, Option.map_some', Option.some.injEq, Nat.zero_add]
      unfold extractResult
      rw [hagree j hj]

/-- Witness for C5 at the three segments from split points [65, 130],
with the extraction of segment 1 failing with cause "boom". -/
theorem c5_witness :
    1 < (mkSegments [65, 130]).length ∧
    (fun k => if k = 1 then some "boom" else none) 1 = some "boom" ∧
    ((runSegmentExtractions 0 (fun k => if k = 1 then some "boom" else none)
        (mkSegments [65, 130])).length = (mkSegments [65, 130]).length ∧
     (runSegmentExtractions 0 (fun k => if k = 1 then some "boom" else none)
        (mkSegments [65, 130]))[1]? = some (Except.error ⟨1, "boom"⟩) ∧
     ∀ j, j ≠ 1 →
       (runSegmentExtractions 0 (fun k => if k = 1 then some "boom" else none)
          (mkSegments [65, 130]))[j]? =
       (runSegmentExtractions 0 (fun _ => none) (mkSegments [65, 130]))[j]?) :=
  ⟨by decide, rfl,
    c5_extraction_independent_per_segment (mkSegments [65, 130]) _ _ 1 "boom"
      (by decide) rfl (by intro j hj; simp [hj])⟩

/-- The sequential transcription loop emits exactly one entry per chunk. -/
theorem transcribeChunksGo_length (k : ℕ)
    (f : ℕ → Chunk → Except String String) (chunks : List Chunk) :
    (transcribeChunksGo k f chunks).length = chunks.length := by
  induction chunks generalizing k with
  | nil => rfl
  | cons c rest ih => simp [transcribeChunksGo, ih]

/-- The j-th transcript entry is exactly the j-th chunk's own entry under
the transcription oracle, offset by the starting loop index. -/
theorem transcribeChunksGo_getElem? (k j : ℕ)
    (f : ℕ → Chunk → Except String String) (chunks : List Chunk) :
    (transcribeChunksGo k f chunks)[j]? =
      (chunks[j]?).map (fun c => transcribeChunkEntry c (f (k + j) c)) := by
  induction chunks generalizing k j with
  | nil => simp [transcribeChunksGo]
  | cons c rest ih =>
    cases j with
    | zero => simp [transcribeChunksGo]
    | succ j' =>
      simp only [transcribeChunksGo, List.getElem?_cons_succ]
      rw [ih (k + 1) j']
      have h : k + 1 + j' = k + (j' + 1) := by omega
      rw [h]

/-- C6: the transcription loop emits exactly one entry per chunk, in
chunk order; when the external call fails for chunk i, chunk i's entry
carries that chunk's offsets with the inline text `[ERROR: <message>]`,
the run continues, and every other chunk's entry is unchanged under any
transcription oracle that agrees outside i — no single chunk's failure
aborts or perturbs the rest of the run. -/
theorem c6_transcription_failure_isolated (chunks : List Chunk)
    (f g : ℕ → Chunk → Except String String) (i : ℕ) (msg : String)
    (hi : i < chunks.length) (hfail : f i chunks[i] = Except.error msg)
    (hagree : ∀ j, j ≠ i → g j = f j) :
    (transcribeAudioEntries chunks f).length = chunks.length ∧
    (transcribeAudioEntries chunks f)[i]? =
      some ⟨chunks[i].startTime, chunks[i].endTime, "[ERROR: " ++ msg ++ "]"⟩ ∧
    ∀ j, j ≠ i →
      (transcribeAudioEntries chunks f)[j]? =
      (transcribeAudioEntries chunks g)[j]? := by
  refine ⟨transcribeChunksGo_length 0 f chunks, ?_, ?_⟩
  · rw [transcribeAudioEntries, transcribeChunksGo_getElem?, List.getElem?_eq_getElem hi]
    simp only [Option.map_some', Option.some.injEq, Nat.zero_add]
    rw [hfail]
    rfl
  · intro j hj
    rw [transcribeAudioEntries, transcribeAudioEntries,
      transcribeChunksGo_getElem?, transcribeChunksGo_getElem?]
    cases hcj : chunks[j]? with
    | none => simp
    | some c =>
      simp only [hcj, Option.map_some', Option.some.injEq, Nat.zero_add]
      rw [hagree j hj]

/-- Witness for C6 at the three chunks from split points [65, 130], with
the transcription of chunk 1 failing with message "api down". -/
theorem c6_witness :
    1 < ([⟨0, some 65⟩, ⟨65, some 130⟩, ⟨130, none⟩] : List Chunk).length ∧
    (fun (k : ℕ) (_ : Chunk) =>
        if k = 1 then Except.error "api down" else Except.ok "hello") 1
      ([⟨0, some 65⟩, ⟨65, some 130⟩, ⟨130, none⟩] : List Chunk)[1] =
      Except.error "api down" ∧
    ((transcribeAudioEntries [⟨0, some 65⟩, ⟨65, some 130⟩, ⟨130, none⟩]
        (fun k _ => if k = 1 then Except.error "api down" else Except.ok "hello")).length =
      ([⟨0, some 65⟩, ⟨65, some 130⟩, ⟨130, none⟩] : List Chunk).length ∧
     (transcribeAudioEntries [⟨0, some 65⟩, ⟨65, some 130⟩, ⟨130, none⟩]
        (fun k _ => if k = 1 then Except.error "api down" else Except.ok "hello"))[1]? =
      some ⟨65, some 130, "[ERROR: " ++ "api down" ++ "]"⟩ ∧
     ∀ j, j ≠ 1 →
       (transcribeAudioEntries [⟨0, some 65⟩, ⟨65, some 130⟩, ⟨130, none⟩]
          (fun k _ => if k = 1 then Except.error "api down" else Except.ok "hello"))[j]? =
       (transcribeAudioEntries [⟨0, some 65⟩, ⟨65, some 130⟩, ⟨130, none⟩]
          (fun _ _ => Except.ok "hello"))[j]?) :=
  ⟨by decide, rfl,
    c6_transcription_failure_isolated [⟨0, some 65⟩, ⟨65, some 130⟩, ⟨130, none⟩] _ _ 1
      "api down" (by decide) rfl (by intro j hj; funext c; simp [hj])⟩

/-- With target 0 and a chronologically ordered silence list whose points
all lie at or past the cursor, the planner loop returns every silence
point: each point opens a candidate region and is committed as a cut. -/
theorem calcGo_target_zero {cursor : ℚ} {l : List ℚ}
    (h : List.Chain' (· ≤ ·) (cursor :: l)) : calcGo cursor 0 l = l := by
  induction l generalizing cursor with
  | nil => rfl
  | cons p rest ih =>
    have h1 : cursor ≤ p := (List.chain'_cons.mp h).1
    have h2 : List.Chain' (· ≤ ·) (p :: rest) := (List.chain'_cons.mp h).2
    rw [calcGo, if_pos (by linarith [(by norm_num : (0:ℚ) * 0.8 = 0)])]
    have hbest : (findBest cursor 0 (p :: rest)).getD p = p := by
      rw [findBest]
      rcases eq_or_lt_of_le h1 with heq | hlt
      · rw [if_pos (by constructor <;> [linarith; linarith])]
        rfl
      · rw [if_neg (by intro hc; linarith [hc.1]), if_pos (by linarith)]
        rfl
    show (findBest cursor 0 (p :: rest)).getD p ::
      calcGo ((findBest cursor 0 (p :: rest)).getD p) 0 rest = p :: rest
    rw [hbest, ih h2]

/-- C8: the claim fails: no targetChunkSeconds validation exists anywhere
on the splitting path. With targetChunkSeconds = 0 (an invalid
configuration) and a silence point detected at 5s, `splitAtSilence` runs
the planner to completion and dispatches silence-based extraction at [5]
instead of failing before any work. -/
theorem c8_counterexample :
    splitAtSilenceDispatch [5] 10 0 = SplitDispatch.silenceBased [5] := by
  norm_num [splitAtSilenceDispatch, calculateOptimalSplitPoints, calcGo, findBest]

/-- C8 amended: the pipeline performs no fail-fast validation of
targetChunkSeconds: with the invalid configuration targetChunkSeconds = 0
and any non-empty chronologically ordered non-negative silence-point
sequence, scanning and planning proceed — the planner returns every
silence point as a cut — and silence-based extraction is dispatched. -/
theorem c8_amended_no_fail_fast (sp : List ℚ) (d : ℚ) (hne : sp ≠ [])
    (hchain : List.Chain' (· ≤ ·) (0 :: sp)) :
    splitAtSilenceDispatch sp d 0 = SplitDispatch.silenceBased sp := by
  have hcalc : calculateOptimalSplitPoints sp d 0 = sp := calcGo_target_zero hchain
  unfold splitAtSilenceDispatch
  rw [hcalc, if_neg (by simpa [List.length_eq_zero] using hne)]

/-- Witness for the amended C8 at silencePoints = [5], duration = 10,
targetChunkSeconds = 0. -/
theorem c8_amended_witness :
    ([5] : List ℚ) ≠ [] ∧
    List.Chain' (· ≤ ·) [(0 : ℚ), 5] ∧
    splitAtSilenceDispatch [5] 10 0 = SplitDispatch.silenceBased [5] :=
  ⟨by simp, by simp [List.chain'_cons],
    c8_amended_no_fail_fast [5] 10 (by simp) (by simp [List.chain'_cons])⟩

/-- The implementation's inner scan returns exactly the point chosen by
the reference forward scan (which additionally carries the remaining
points after the choice). -/
theorem findBest_eq_findBestSplit (cursor t : ℚ) (l : List ℚ) :
    findBest cursor t l = (findBestSplit cursor t l).map Prod.fst := by
  induction l with
  | nil => rfl
  | cons c rest ih =>
    rw [findBest, findBestSplit]
    split
    · rfl
    · split
      · rfl
      · exact ih

/-- When the reference forward scan chooses q, the scanned list splits as
a skipped prefix, then q, then the remainder handed back for the outer
walk. -/
theorem findBestSplit_decomp {cursor t q : ℚ} {l rest2 : List ℚ}
    (h : findBestSplit cursor t l = some (q, rest2)) :
    ∃ pre, l = pre ++ q :: rest2 := by
  induction l with
  | nil => simp [findBestSplit] at h
  | cons c rest ih =>
    rw [findBestSplit] at h
    split at h
    · cases h
      exact ⟨[], rfl⟩
    · split at h
      · cases h
      · rcases ih h with ⟨pre, hpre⟩
        exact ⟨c :: pre, by rw [List.cons_append, hpre]⟩

/-- Silence points at or before the cursor can never reopen a candidate
region when the target is positive: the planner loop skips them all. -/
theorem calcGo_skip {t : ℚ} (ht : 0 < t) {cursor : ℚ} {mid l2 : List ℚ}
    (hmid : ∀ x ∈ mid, x ≤ cursor) :
    calcGo cursor t (mid ++ l2) = calcGo cursor t l2 := by
  induction mid with
  | nil => rfl
  | cons x mid' ih =>
    have hx : x ≤ cursor := hmid x (List.mem_cons_self _ _)
    rw [List.cons_append, calcGo, if_neg (by intro hc; nlinarith)]
    exact ih fun y hy => hmid y (List.mem_cons_of_mem _ hy)

/-- Core equivalence: on a chronologically non-decreasing silence list
with a positive target, the implementation's loop (resuming after the
opening candidate) computes the same cuts as the reference loop (resuming
after the chosen point), for any sufficient fuel. -/
theorem calcGo_eq_calcRefGo {t : ℚ} (ht : 0 < t) :
    ∀ (n : ℕ) (l : List ℚ) (cursor : ℚ), l.length ≤ n →
      List.Sorted (· ≤ ·) l → calcGo cursor t l = calcRefGo t n cursor l := by
  intro n
  induction n with
  | zero =>
    intro l cursor hlen _
    rw [List.length_eq_zero.mp (Nat.le_zero.mp hlen)]
    rfl
  | succ n ih =>
    intro l cursor hlen hsort
    cases l with
    | nil => rfl
    | cons p rest =>
      rw [calcGo, calcRefGo]
      by_cases hopen : t * 0.8 ≤ p - cursor
      · rw [if_pos hopen, if_pos hopen]
        cases hfb : findBestSplit cursor t (p :: rest) with
        | none =>
          have hfb1 : findBest cursor t (p :: rest) = none := by
            rw [findBest_eq_findBestSplit, hfb]
            rfl
          show (findBest cursor t (p :: rest)).getD p ::
            calcGo ((findBest cursor t (p :: rest)).getD p) t rest = _
          rw [hfb1, Option.getD_none]
          exact congrArg _ (ih rest p (Nat.le_of_succ_le_succ hlen) hsort.of_cons)
        | some qr =>
          obtain ⟨q, rest2⟩ := qr
          have hfb1 : findBest cursor t (p :: rest) = some q := by
            rw [findBest_eq_findBestSplit, hfb]
            rfl
          show (findBest cursor t (p :: rest)).getD p ::
            calcGo ((findBest cursor t (p :: rest)).getD p) t rest = _
          rw [hfb1, Option.getD_some]
          refine congrArg _ ?_
          rcases findBestSplit_decomp hfb with ⟨pre, hdecomp⟩
          have hsort' := hsort
          rw [hdecomp] at hsort'
          have hcross := List.pairwise_append.mp hsort'
          have hsort2 : List.Sorted (· ≤ ·) rest2 := hcross.2.1.of_cons
          have hlen2 : rest2.length ≤ n := by
            have hh := congrArg List.length hdecomp
            have hlen' := hlen
            simp only [List.length_cons, List.length_append] at hh hlen'
            omega
          cases pre with
          | nil =>
            simp only [List.nil_append, List.cons.injEq] at hdecomp
            obtain ⟨hp, hrest⟩ := hdecomp
            rw [← hp, ← hrest]
            exact ih rest p (by simp only [List.length_cons] at hlen; omega) hsort.of_cons
          | cons a pre' =>
            injection hdecomp with hp hrest
            rw [hrest]
            have hskip : ∀ x ∈ pre' ++ [q], x ≤ q := by
              intro x hx
              rcases List.mem_append.mp hx with hx' | hx'
              · exact hcross.2.2 x (List.mem_cons_of_mem _ hx') q (List.mem_cons_self _ _)
              · rw [List.mem_singleton.mp hx']
            calc calcGo q t (pre' ++ q :: rest2)
                = calcGo q t ((pre' ++ [q]) ++ rest2) := by
                  rw [List.append_assoc, List.singleton_append]
              _ = calcGo q t rest2 := calcGo_skip ht hskip
              _ = calcRefGo t n q rest2 := ih rest2 q hlen2 hsort2
      · rw [if_neg hopen, if_neg hopen]
        exact ih rest cursor (Nat.le_of_succ_le_succ hlen) hsort.of_cons

/-- C9: for every chronologically non-decreasing silence-point sequence
and positive targetChunkSeconds, the implemented computation — whose
outer loop resumes at the position after the opening candidate — returns
the same sequence as the spec's reference algorithm, whose outer walk
resumes at the position after the chosen point: the intermediate points
the implementation revisits all lie at or before the new cursor, so they
can never reopen a candidate region. -/
theorem c9_impl_matches_reference (sp : List ℚ) (d t : ℚ) (ht : 0 < t)
    (hsorted : List.Sorted (· ≤ ·) sp) :
    calculateOptimalSplitPoints sp d t = calcRefSplitPoints sp t :=
  calcGo_eq_calcRefGo ht sp.length sp 0 le_rfl hsorted

/-- Witness for C9 at the worked example silencePoints =
[10, 40, 65, 95, 130], duration = 140, targetChunkSeconds = 60. -/
theorem c9_witness :
    (0 : ℚ) < 60 ∧
    List.Sorted (· ≤ ·) [(10 : ℚ), 40, 65, 95, 130] ∧
    calculateOptimalSplitPoints [10, 40, 65, 95, 130] 140 60 =
      calcRefSplitPoints [10, 40, 65, 95, 130] 60 :=
  ⟨by norm_num, by norm_num [List.sorted_cons],
    c9_impl_matches_reference [10, 40, 65, 95, 130] 140 60 (by norm_num)
      (by norm_num [List.sorted_cons])⟩
